import Mathlib

/-!
Verification of the interlog core (append-only event log with a bipartite
circular read cache) against its natural-language specification.

The model is a shallow embedding of `src/core/src/log.rs` together with the
fixed-capacity vector of `src/src/util.rs`.  Byte buffers are `List Nat`
(each element a byte value), machine integers are `Nat` with explicit
`% 2 ^ 64` where 64-bit truncation matters.  The modules `event`, `region`,
`fixvec` and `disk` of the core crate are not present under `src/`; where a
definition comes from the spec rather than from source code its doc comment
says so explicitly.

Rust `panic!` / `expect` / failed `assert!` sites are modelled by `Option`
(`none` = the process aborts) or by a dedicated `panicked` constructor, so
that aborting and returning `None` are distinguishable observations.
Unsigned subtraction underflow (a debug-profile panic in Rust) is likewise
modelled as a panic where the source can reach it.
-/

namespace Interlog

/-- Little-endian encoding of `n` into `w` bytes (the on-disk layout is
little-endian; a `u64` occupies 8 bytes). -/
def encodeLE : Nat → Nat → List Nat
  | 0, _ => []
  | w + 1, n => n % 256 :: encodeLE w (n / 256)

/-- Little-endian decoding of a byte list. -/
def decodeLE : List Nat → Nat
  | [] => 0
  | b :: bs => b + 256 * decodeLE bs

/-- Round `n` up to the next multiple of 8 (on-disk alignment padding). -/
def align8 (n : Nat) : Nat := (n + 7) / 8 * 8

/-- Event id: origin address (two 64-bit words) plus logical position. -/
structure EventID where
  origin : Nat × Nat
  logical_pos : Nat
  deriving DecidableEq

/-- An event: id plus opaque byte payload. -/
structure Event where
  id : EventID
  payload : List Nat
  deriving DecidableEq

instance : Inhabited Event := ⟨⟨⟨(0, 0), 0⟩, []⟩⟩

/-- Modelled from the spec (§4.3, the core's `event` module is not under
`src/`): the header records origin (16 bytes), logical position (8 bytes)
and payload length (8 bytes). -/
def HEADER_SIZE : Nat := 32

/-- Modelled from the spec (§3, §4.3): on-disk size is header size plus
payload size, rounded up to the next multiple of 8. -/
def Event.on_disk_size (e : Event) : Nat := align8 (HEADER_SIZE + e.payload.length)

/-- Modelled from the spec (§4.3, `event` module missing from `src/`): the
serialized on-disk form of an event: header fields little-endian, then the
payload, then zero padding up to the on-disk size. -/
def Event.serialize (e : Event) : List Nat :=
  encodeLE 8 e.id.origin.1 ++ encodeLE 8 e.id.origin.2 ++
    encodeLE 8 e.id.logical_pos ++ encodeLE 8 e.payload.length ++
    e.payload ++
    List.replicate (e.on_disk_size - (HEADER_SIZE + e.payload.length)) 0

/-- Modelled from the spec (§4.3, `event::read`): decode the event whose
header begins at `offset`; `none` if `offset + HEADER_SIZE > bytes.len` or
the declared payload length would overflow the slice. -/
def eventRead (bytes : List Nat) (offset : Nat) : Option Event :=
  if offset + HEADER_SIZE > bytes.length then none
  else
    let w0 := decodeLE ((bytes.drop offset).take 8)
    let w1 := decodeLE ((bytes.drop (offset + 8)).take 8)
    let pos := decodeLE ((bytes.drop (offset + 16)).take 8)
    let plen := decodeLE ((bytes.drop (offset + 24)).take 8)
    if offset + HEADER_SIZE + plen > bytes.length then none
    else some ⟨⟨(w0, w1), pos⟩, (bytes.drop (offset + HEADER_SIZE)).take plen⟩

/-- Modelled from the spec (§4.3, `event::View`): iterate consecutive events
from `offset`, each step advancing by the event's on-disk size, stopping at
the first position where no whole event can be decoded.  Fuel-based so that
it is structurally recursive; any fuel above the number of remaining events
gives the same value. -/
def viewFromF : Nat → List Nat → Nat → List Event
  | 0, _, _ => []
  | fuel + 1, bytes, offset =>
    match eventRead bytes offset with
    | none => []
    | some e => e :: viewFromF fuel bytes (offset + e.on_disk_size)

/-- `event::View::new(bytes)` collected into a list (iteration from 0). -/
def viewEvents (bytes : List Nat) : List Event :=
  viewFromF (bytes.length + 1) bytes 0

/-- Concatenation of the serialized forms of a list of events. -/
def concatSer (evs : List Event) : List Nat := (evs.map Event.serialize).flatten

/-- `Region` from the core's `region` module (not under `src/`); it matches
`Segment` of `src/src/util.rs`: a `(pos, len)` window with derived
`end = pos + len`. -/
structure Region where
  pos : Nat
  len : Nat
  deriving DecidableEq

/-- `Segment::new(pos, len)` / `Region::new`. -/
def Region.new (pos len : Nat) : Region := ⟨pos, len⟩

/-- `Region::ZERO`. -/
def Region.ZERO : Region := ⟨0, 0⟩

/-- Derived `end()` (`end` is a keyword in Lean): `pos + len`. -/
def Region.end' (r : Region) : Nat := r.pos + r.len

/-- `lengthen(n)` grows `len` (from `src/src/util.rs` `Segment::lengthen`). -/
def Region.lengthen (r : Region) (n : Nat) : Region := ⟨r.pos, r.len + n⟩

/-- `change_pos(new_pos)`: set `pos`, leaving `end` the same (from
`src/src/util.rs` `Segment::change_pos`).  `end - new_pos` is Rust `usize`
subtraction; every call site below has `new_pos ≤ end`. -/
def Region.change_pos (r : Region) (new_pos : Nat) : Region :=
  ⟨new_pos, r.end' - new_pos⟩

/-- `empty()` iff `len == 0`.  Modelled from the spec (§4.1). -/
def Region.isEmpty (r : Region) : Bool := r.len == 0

/-- Modelled from the spec (§4.1): `read(buf)` returns `buf[pos..end]` or an
error (`none`) if out of bounds. -/
def Region.read (r : Region) (buf : List Nat) : Option (List Nat) :=
  if r.pos + r.len ≤ buf.length then some ((buf.drop r.pos).take r.len) else none

/-- Modelled from the spec (§4.1): `write(buf, src)` copies `src` into
`buf[pos..pos+src.len]` or errors (`none`) if it does not fit. -/
def Region.write (r : Region) (buf src : List Nat) : Option (List Nat) :=
  if r.pos + src.length ≤ buf.length then
    some (buf.take r.pos ++ src ++ buf.drop (r.pos + src.length))
  else none

/-- Fixed-capacity vector from `src/src/util.rs`: a capacity fixed at
construction and the list of live elements (`elems[..len]`). -/
structure FixVec (α : Type) where
  cap : Nat
  elems : List α
  deriving DecidableEq

/-- `FixVec::new(capacity)`. -/
def FixVec.new (α : Type) (capacity : Nat) : FixVec α := ⟨capacity, []⟩

/-- `FixVec::push`: fails (second component `false`) when the new length
exceeds the capacity, leaving the vector unchanged (`check_capacity` runs
before the store). -/
def FixVec.push {α} (v : FixVec α) (x : α) : FixVec α × Bool :=
  if v.cap ≥ v.elems.length + 1 then (⟨v.cap, v.elems ++ [x]⟩, true) else (v, false)

/-- `FixVec::extend` over an iterator: pushes elementwise, stopping at the
first overflow; elements pushed before the overflow stay in the vector. -/
def FixVec.extend {α} (v : FixVec α) : List α → FixVec α × Bool
  | [] => (v, true)
  | x :: rest =>
    match v.push x with
    | (v', true) => v'.extend rest
    | (v', false) => (v', false)

/-- `FixVec::extend_from_slice`: checks capacity up front, so the vector is
unchanged on failure. -/
def FixVec.extend_from_slice {α} (v : FixVec α) (other : List α) : FixVec α × Bool :=
  if v.cap ≥ v.elems.length + other.length then (⟨v.cap, v.elems ++ other⟩, true)
  else (v, false)

/-- `FixVec::get` (the `Option`-returning lookup on the live slice). -/
def FixVec.get? {α} (v : FixVec α) (i : Nat) : Option α :=
  if i < v.elems.length then v.elems.get? i else none

/-- `FixVec::clear`. -/
def FixVec.clear {α} (v : FixVec α) : FixVec α := ⟨v.cap, []⟩

/-- Modelled from the spec (§4.3, `event::append`): serialize header,
payload and padding into the buffer; fails with `Overflow` (second
component `false`, buffer unchanged) if the buffer cannot hold the full
on-disk size. -/
def eventAppend (buf : FixVec Nat) (e : Event) : FixVec Nat × Bool :=
  if buf.cap ≥ buf.elems.length + e.on_disk_size then
    (⟨buf.cap, buf.elems ++ e.serialize⟩, true)
  else (buf, false)

/-- The bipartite circular read cache (`ReadCache` in `src/core/src/log.rs`):
a fixed byte buffer `mem`, the logical position `logical_start` of the first
event believed cached, and two regions `a` (top segment) and `b` (bottom
segment). -/
structure ReadCache where
  mem : List Nat
  logical_start : Nat
  a : Region
  b : Region
  deriving DecidableEq

/-- `ReadCache::new(capacity)`: zeroed buffer, both regions `ZERO`. -/
def ReadCache.new (capacity : Nat) : ReadCache :=
  ⟨List.replicate capacity 0, 0, Region.ZERO, Region.ZERO⟩

/-- `ReadCache::extend(region, dest, src)`: write `src` at offset
`region.len` of `dest` (the extension region is `Region::new(region.len,
src.len())`), then lengthen the region.  `none` on `region::WriteErr`,
leaving region and buffer unchanged. -/
def cacheExtend (region : Region) (dest src : List Nat) :
    Option (Region × List Nat) :=
  match (Region.new region.len src.length).write dest src with
  | none => none
  | some dest' => some (region.lengthen src.length, dest')

/-- `ReadCache::overlapping_regions`: `b.end() > a.pos`. -/
def ReadCache.overlapping_regions (c : ReadCache) : Bool :=
  decide (c.b.end' > c.a.pos)

/-- `ReadCache::set_logical_start`: decode the first event of `es` and take
its logical position; the source `expect`s the decode, so `none` models the
panic. -/
def ReadCache.set_logical_start? (c : ReadCache) (es : List Nat) : Option ReadCache :=
  (eventRead es 0).map fun e => { c with logical_start := e.id.logical_pos }

/-- Running totals of a list (the `scan` in `ReadCache::new_a_pos`): for
sizes `[s₀, s₁, …]` this is `[s₀, s₀+s₁, …]`. -/
def runningTotals (acc : Nat) : List Nat → List Nat
  | [] => []
  | s :: rest => (acc + s) :: runningTotals (acc + s) rest

/-- `ReadCache::new_a_pos(es)`: walk events in `A`, accumulating on-disk
sizes, and find the first accumulated offset strictly greater than
`b.end() + es.len()`.  Outer `none` models the `expect` panic when region
`a` is out of range of `mem`. -/
def ReadCache.new_a_pos? (c : ReadCache) (es : List Nat) : Option (Option Nat) :=
  (c.a.read c.mem).map fun ab =>
    (runningTotals 0 ((viewEvents ab).map Event.on_disk_size)).find?
      fun o => decide (o > c.b.end' + es.length)

/-- `ReadCache::wrap_around(es)`.  Outer `none` models a panic (from
`new_a_pos`'s buffer read or `set_logical_start`); the `Bool` is `true` on
`Ok(())` and `false` on `Err(region::WriteErr)`, with the cache in the state
the source leaves it in (mutations before the failure are kept). -/
def ReadCache.wrap_around? (c : ReadCache) (es : List Nat) :
    Option (ReadCache × Bool) :=
  match c.new_a_pos? es with
  | none => none
  | some (some new_a_pos) =>
    let c := { c with a := c.a.change_pos new_a_pos }
    match cacheExtend c.b c.mem es with
    | some (b', mem') => some ({ c with b := b', mem := mem' }, true)
    | none => some (c, false)
  | some none =>
    let c := { c with a := Region.new 0 c.b.end', b := Region.ZERO }
    match cacheExtend c.a c.mem es with
    | some (a', mem') => some ({ c with a := a', mem := mem' }, true)
    | none =>
      let c := { c with a := Region.ZERO }
      match c.set_logical_start? es with
      | none => none
      | some c =>
        match cacheExtend c.a c.mem es with
        | some (a', mem') => some ({ c with a := a', mem := mem' }, true)
        | none => some (c, false)

/-- `ReadCache::update(es)` without the two trailing `assert`s; the
assertion conditions (`b.pos == 0` and no overlap) are stated and proved
separately over reachable caches, which is what "the assertions never
fire" means.  Outer `none` models a panic inside the update. -/
def ReadCache.update? (c : ReadCache) (es : List Nat) : Option (ReadCache × Bool) :=
  match c.a.isEmpty, c.b.isEmpty with
  | true, true =>
    match c.set_logical_start? es with
    | none => none
    | some c =>
      match cacheExtend c.a c.mem es with
      | some (a', mem') => some ({ c with a := a', mem := mem' }, true)
      | none => some (c, false)
  | false, true =>
    match cacheExtend c.a c.mem es with
    | some (a', mem') => some ({ c with a := a', mem := mem' }, true)
    | none => c.wrap_around? es
  | _, false => c.wrap_around? es

/-- `ReadCache::read(relative_byte_pos)`: try to decode from `A`, then from
`B` at `relative_byte_pos - a_bytes.len()`.  Outer `none` models a panic:
either a region out of range of `mem` (the two `expect`s in
`read_a`/`read_b`) or `usize` underflow of the subtraction (a debug-profile
panic reachable when the decode from `A` fails at a position inside `A`). -/
def ReadCache.read? (c : ReadCache) (relative_byte_pos : Nat) :
    Option (Option Event) :=
  match c.a.read c.mem, c.b.read c.mem with
  | some a_bytes, some b_bytes =>
    match eventRead a_bytes relative_byte_pos with
    | some e => some (some e)
    | none =>
      if relative_byte_pos < a_bytes.length then none
      else some (eventRead b_bytes (relative_byte_pos - a_bytes.length))
  | _, _ => none

/-- `CommitErr` (`src/core/src/log.rs`).  `disk` and `readCache` carry no
payload in the model; the spec-visible distinction is the constructor. -/
inductive CommitErr where
  | disk
  | readCache
  | txnWriteBufHasNoEvents
  | keyIndex
  deriving DecidableEq

/-- The result of a `Log::read` call: either the process panicked, or the
source returned `Option<Read>`, a `Read` carrying `cache_hit` and the
event. -/
inductive ReadRes where
  | panicked
  | ret (r : Option (Bool × Event))
  deriving DecidableEq

/-- `Log` state (`src/core/src/log.rs`).  `disk` is the byte stream held by
the storage adapter (an append-only in-memory sink, as in the simulator;
`disk::Log` is not under `src/`, its interface is §4.5 of the spec).
`events` is specification-level bookkeeping, not a field of the source
struct: the list of events for which an offset was pushed into `key_index`,
appended in the same loop iteration as the push; it lets invariants speak
about "event i" of the index. -/
structure LogState where
  id : Nat × Nat
  byte_len : Nat
  read_cache : ReadCache
  key_index : FixVec Nat
  txn_write_buf : FixVec Nat
  disk_read_buf_cap : Nat
  disk : List Nat
  events : List Event
  deriving DecidableEq

/-- `Log::new` with the four capacities of `Config` (storage starts empty,
`byte_len = 0`). -/
def LogState.init (id : Nat × Nat) (read_cache_capacity key_index_capacity
    txn_write_buf_capacity disk_read_buf_capacity : Nat) : LogState :=
  ⟨id, 0, ReadCache.new read_cache_capacity, FixVec.new Nat key_index_capacity,
    FixVec.new Nat txn_write_buf_capacity, disk_read_buf_capacity, [], []⟩

/-- `Log::enqueue(payload)`: serialize an event with the next logical
position (`key_index.len()`) into the transaction write buffer.  `false`
models `Err(EnqueueErr)` with the buffer unchanged. -/
def LogState.enqueue (s : LogState) (payload : List Nat) : LogState × Bool :=
  let e : Event := ⟨⟨s.id, s.key_index.elems.length⟩, payload⟩
  match eventAppend s.txn_write_buf e with
  | (buf, ok) => ({ s with txn_write_buf := buf }, ok)

/-- The key-index loop of `Log::commit`: for each event of the view, push
the running disk offset, then advance it by the event's on-disk size.  Also
returns the list of events whose offsets were pushed (the specification
bookkeeping for `LogState.events`) and whether every push succeeded. -/
def pushLoop (ki : FixVec Nat) (off : Nat) :
    List Event → FixVec Nat × Nat × List Event × Bool
  | [] => (ki, off, [], true)
  | e :: rest =>
    match ki.push off with
    | (ki', true) =>
      match pushLoop ki' (off + e.on_disk_size) rest with
      | (kf, offf, pushed, ok) => (kf, offf, e :: pushed, ok)
    | (ki', false) => (ki', off, [], false)

/-- The result of a `Log::commit` call: either a panic (the `assert`s /
`expect`s inside commit) or the post-call state together with the returned
error, `none` meaning `Ok(())`. -/
inductive CommitRes where
  | panicked
  | result (s : LogState) (err : Option CommitErr)
  deriving DecidableEq

/-- `Log::commit`.  `diskOk` is the behaviour of the external storage
adapter for this call: `false` makes `disk.append` fail (surfaced as
`CommitErr::Disk`), `true` makes it append the whole buffer and return its
length (§4.5: the adapter returns `bytes.len()` on success).  The entry
assertion `byte_len % 8 == 0` and the closing assertion on the advanced
`byte_len` are `panicked` outcomes. -/
def LogState.commit (s : LogState) (diskOk : Bool) : CommitRes :=
  if s.byte_len % 8 ≠ 0 then .panicked
  else if HEADER_SIZE > s.txn_write_buf.elems.length then
    .result s (some .txnWriteBufHasNoEvents)
  else if ¬diskOk then .result s (some .disk)
  else
    let bytes_flushed := s.txn_write_buf.elems.length
    let disk' := s.disk ++ s.txn_write_buf.elems
    match s.read_cache.update? s.txn_write_buf.elems with
    | none => .panicked
    | some (rc, false) =>
      .result { s with disk := disk', read_cache := rc } (some .readCache)
    | some (rc, true) =>
      match pushLoop s.key_index s.byte_len (viewEvents s.txn_write_buf.elems) with
      | (ki', _, pushed, false) =>
        .result { s with disk := disk', read_cache := rc, key_index := ki',
                         events := s.events ++ pushed } (some .keyIndex)
      | (ki', _, pushed, true) =>
        if (s.byte_len + bytes_flushed) % 8 ≠ 0 then .panicked
        else
          .result { s with disk := disk', read_cache := rc, key_index := ki',
                           events := s.events ++ pushed,
                           byte_len := s.byte_len + bytes_flushed,
                           txn_write_buf := s.txn_write_buf.clear } none

/-- `Log::read(logical_pos)`.  The first index lookup is slice indexing
(`key_index[logical_start]`), which panics out of bounds; the others use
`get`.  On a cache miss below the cache window, the disk path computes the
event length from the next index entry, reads from storage into the disk
read buffer and decodes; each `expect` on that path is a `panicked`
outcome.  (The disk read buffer is fully overwritten by every miss, so its
content is not part of the state the model tracks; only its capacity is.) -/
def LogState.read (s : LogState) (logical_pos : Nat) : ReadRes :=
  match s.key_index.get? s.read_cache.logical_start with
  | none => .panicked
  | some byte_start =>
    match s.key_index.get? logical_pos with
    | none => .ret none
    | some byte_pos =>
      if byte_start ≤ byte_pos then
        match s.read_cache.read? (byte_pos - byte_start) with
        | none => .panicked
        | some r => .ret (r.map fun e => (true, e))
      else
        match s.key_index.get? (logical_pos + 1) with
        | none => .ret none
        | some next_byte_pos =>
          if next_byte_pos < byte_pos then .panicked
          else
            let len := next_byte_pos - byte_pos
            if len > s.disk_read_buf_cap then .panicked
            else if byte_pos + len > s.disk.length then .panicked
            else
              match eventRead ((s.disk.drop byte_pos).take len) 0 with
              | none => .panicked
              | some e => .ret (some (false, e))

/-- The offsets the commit loop pushes for a batch of event sizes starting
at disk offset `start`: `[start, start + s₀, start + s₀ + s₁, …]`. -/
def offsetsFrom (start : Nat) : List Nat → List Nat
  | [] => []
  | s :: rest => start :: offsetsFrom (start + s) rest

/-- Payload lengths representable in the source's `usize` (64-bit).  The
Rust code cannot receive a longer slice; the `Nat`-valued model states the
bound explicitly where the 64-bit length field must round-trip. -/
def Bounded (evs : List Event) : Prop := ∀ e ∈ evs, e.payload.length < 2 ^ 64

/-- The event produced by decoding a serialized event: the payload is kept,
the id words are truncated to 64 bits (they are stored in 8 bytes each). -/
def truncId (e : Event) : Event :=
  ⟨⟨(e.id.origin.1 % 2 ^ 64, e.id.origin.2 % 2 ^ 64), e.id.logical_pos % 2 ^ 64⟩,
    e.payload⟩

/-- The log states reachable from a fresh log by any sequence of `enqueue`
and `commit` calls (with the storage adapter free to fail any append).
Payloads are bounded by `2 ^ 64` because they are Rust slices.  A call that
panics yields no successor state. -/
inductive Reachable : LogState → Prop where
  | init (id : Nat × Nat) (cacheCap kiCap bufCap drbCap : Nat) :
      Reachable (LogState.init id cacheCap kiCap bufCap drbCap)
  | enqueue {s : LogState} (payload : List Nat)
      (hp : payload.length < 2 ^ 64) (hs : Reachable s) :
      Reachable (s.enqueue payload).1
  | commit {s s' : LogState} (d : Bool) {e : Option CommitErr}
      (hs : Reachable s) (h : s.commit d = .result s' e) : Reachable s'

/-- The cache states reachable from `ReadCache::new` by any sequence of
(non-panicking) `update` calls, with arbitrary byte batches. -/
inductive CacheReachable : ReadCache → Prop where
  | init (capacity : Nat) : CacheReachable (ReadCache.new capacity)
  | step {c c' : ReadCache} {es : List Nat} {ok : Bool}
      (hc : CacheReachable c) (h : c.update? es = some (c', ok)) :
      CacheReachable c'

/-- One enqueue-then-commit round with a working disk; used only to build
concrete demonstration states (each is checked by evaluation afterwards, so
the fallback arm for a panicking commit is never exercised). -/
def logStep (s : LogState) (p : List Nat) : LogState :=
  match (s.enqueue p).1.commit true with
  | .result s' _ => s'
  | .panicked => s

/-- Demonstration log A: read cache capacity 120; four commits of one event
each, payloads `[100]`, `[101]`, `[102]`, `[103]` (each event 40 bytes on
disk, so the fourth commit wraps the cache and evicts events 0 and 1). -/
def demoA (n : Nat) : LogState :=
  (List.range n).foldl (fun s i => logStep s [100 + i])
    (LogState.init (0, 0) 120 16 64 64)

/-- Demonstration log B: read cache capacity 144; six commits of one event
each with payloads `[]`, `[]`, eight `2`s, eight `3`s, `[]`, eight `5`s
(event sizes 32, 32, 40, 40, 32, 40), driving two successive wrap-arounds
so that the second one starts from `a.pos = 64 ≠ 0`. -/
def demoB (n : Nat) : LogState :=
  ([[], [], List.replicate 8 2, List.replicate 8 3, [],
    List.replicate 8 5].take n).foldl logStep
    (LogState.init (0, 0) 144 16 64 64)

/-- The repository's own unit test (`mod tests`, `fn log` in
`src/core/src/log.rs`) modelled with its configuration: read cache
capacity 127, two singleton enqueue-commit rounds whose payloads have the
literal strings' lengths 27 and 34 bytes (only the lengths steer control
flow; the model uses repeated bytes 65 and 66). -/
def demoTest (n : Nat) : LogState :=
  ([List.replicate 27 65, List.replicate 34 66].take n).foldl logStep
    (LogState.init (0, 0) 127 4096 512 256)

/-- The bytes of cache segment `A` as the source's `read_a` would return
them (defaulting to `[]` where the source would panic; the demonstration
states never hit that default). -/
def cacheABytes (c : ReadCache) : List Nat := (c.a.read c.mem).getD []

/-- The bytes of cache segment `B`, as `read_b`. -/
def cacheBBytes (c : ReadCache) : List Nat := (c.b.read c.mem).getD []

/-- The inductive invariant of the log relating index, events, byte length
and write buffer: the key index is exactly the running offsets of the
indexed events' on-disk sizes; those sizes are positive; the total size of
the indexed events equals `byte_len` unless the index has hit capacity
(after which it can never grow again); the index fits its capacity; and the
write buffer is a concatenation of serialized events with representable
payload lengths. -/
def LogInv (s : LogState) : Prop :=
  s.key_index.elems = offsetsFrom 0 (s.events.map Event.on_disk_size) ∧
  (∀ e ∈ s.events, 0 < e.on_disk_size) ∧
  ((s.events.map Event.on_disk_size).sum = s.byte_len ∨
    s.key_index.elems.length = s.key_index.cap) ∧
  s.key_index.elems.length ≤ s.key_index.cap ∧
  (∃ staged, s.txn_write_buf.elems = concatSer staged ∧ Bounded staged)

/-- The cache state and flag after one `update` of a fresh capacity-144
cache with one serialized empty-payload event (a concrete input for the
cache-invariant theorem). -/
def demoCacheRes : ReadCache × Bool :=
  ((ReadCache.new 144).update? (Event.serialize ⟨⟨(0, 0), 0⟩, []⟩)).getD
    (ReadCache.new 0, false)

/-- A log with one committed event and one staged event in the write
buffer (a concrete input for the disk-error theorem). -/
def demoC6 : LogState := ((demoA 1).enqueue [7]).1

end Interlog

namespace Interlog

set_option maxRecDepth 20000

theorem encodeLE_length (w n : Nat) : (encodeLE w n).length = w := by
  induction w generalizing n with
  | zero => rfl
  | succ w ih => simp [encodeLE, ih]

theorem decode_encode (w n : Nat) : decodeLE (encodeLE w n) = n % 256 ^ w := by
  induction w generalizing n with
  | zero => simp [encodeLE, decodeLE, Nat.mod_one]
  | succ w ih =>
    rw [encodeLE, decodeLE, ih, pow_succ, mul_comm (256 ^ w) 256, Nat.mod_mul]

theorem le_align8 (n : Nat) : n ≤ align8 n := by
  unfold align8; omega

theorem align8_mult (n : Nat) : align8 n % 8 = 0 := by
  unfold align8; omega

theorem header_le_on_disk_size (e : Event) : HEADER_SIZE ≤ e.on_disk_size :=
  le_trans (Nat.le_add_right _ _) (le_align8 _)

theorem serialize_length (e : Event) : e.serialize.length = e.on_disk_size := by
  have h := le_align8 (HEADER_SIZE + e.payload.length)
  simp [Event.serialize, encodeLE_length, Event.on_disk_size, HEADER_SIZE] at *
  omega

theorem drop_append_len {α} (l1 l2 : List α) (n : Nat) (h : l1.length = n) :
    (l1 ++ l2).drop n = l2 := by
  subst h; exact List.drop_left l1 l2

theorem take_append_len {α} (l1 l2 : List α) (n : Nat) (h : l1.length = n) :
    (l1 ++ l2).take n = l1 := by
  subst h; exact List.take_left l1 l2

theorem drop_append_add {α} (l1 l2 : List α) (k : Nat) :
    (l1 ++ l2).drop (l1.length + k) = l2.drop k := by
  rw [List.drop_append_eq_append_drop]
  simp

theorem truncId_size (e : Event) : (truncId e).on_disk_size = e.on_disk_size := rfl

theorem eventRead_serialize (e : Event) (tail : List Nat)
    (hL : e.payload.length < 2 ^ 64) :
    eventRead (e.serialize ++ tail) 0 = some (truncId e) := by
  obtain ⟨⟨⟨w0, w1⟩, pos⟩, P⟩ := e
  simp only [truncId]
  set L := P.length with hLdef
  set pad : List Nat := List.replicate (align8 (HEADER_SIZE + L) - (HEADER_SIZE + L)) 0 with hpad
  have hser : Event.serialize ⟨⟨(w0, w1), pos⟩, P⟩ ++ tail =
      encodeLE 8 w0 ++ (encodeLE 8 w1 ++ (encodeLE 8 pos ++ (encodeLE 8 L ++
        (P ++ (pad ++ tail))))) := by
    simp [Event.serialize, Event.on_disk_size, List.append_assoc, hpad]
  set bytes := Event.serialize ⟨⟨(w0, w1), pos⟩, P⟩ ++ tail with hbytes
  have hlen : bytes.length = align8 (HEADER_SIZE + L) + tail.length := by
    rw [hbytes, List.length_append, serialize_length]
    rfl
  have hgeL : HEADER_SIZE + L ≤ align8 (HEADER_SIZE + L) := le_align8 _
  have d0 : bytes.drop 0 = bytes := rfl
  have d8 : bytes.drop 8 = encodeLE 8 w1 ++ (encodeLE 8 pos ++ (encodeLE 8 L ++
      (P ++ (pad ++ tail)))) := by
    rw [hser]; exact drop_append_len _ _ 8 (encodeLE_length _ _)
  have d16 : bytes.drop 16 = encodeLE 8 pos ++ (encodeLE 8 L ++ (P ++ (pad ++ tail))) := by
    rw [hser, show (16 : Nat) = (encodeLE 8 w0).length + 8 by simp [encodeLE_length],
      drop_append_add]
    exact drop_append_len _ _ 8 (encodeLE_length _ _)
  have d24 : bytes.drop 24 = encodeLE 8 L ++ (P ++ (pad ++ tail)) := by
    rw [hser, show (24 : Nat) = (encodeLE 8 w0).length + 16 by simp [encodeLE_length],
      drop_append_add, show (16 : Nat) = (encodeLE 8 w1).length + 8 by simp [encodeLE_length],
      drop_append_add]
    exact drop_append_len _ _ 8 (encodeLE_length _ _)
  have d32 : bytes.drop 32 = P ++ (pad ++ tail) := by
    rw [hser, show (32 : Nat) = (encodeLE 8 w0).length + 24 by simp [encodeLE_length],
      drop_append_add, show (24 : Nat) = (encodeLE 8 w1).length + 16 by simp [encodeLE_length],
      drop_append_add, show (16 : Nat) = (encodeLE 8 pos).length + 8 by simp [encodeLE_length],
      drop_append_add]
    exact drop_append_len _ _ 8 (encodeLE_length _ _)
  have t0 : (bytes.drop 0).take 8 = encodeLE 8 w0 := by
    rw [d0, hser]; exact take_append_len _ _ 8 (encodeLE_length _ _)
  have t8 : (bytes.drop 8).take 8 = encodeLE 8 w1 := by
    rw [d8]; exact take_append_len _ _ 8 (encodeLE_length _ _)
  have t16 : (bytes.drop 16).take 8 = encodeLE 8 pos := by
    rw [d16]; exact take_append_len _ _ 8 (encodeLE_length _ _)
  have t24 : (bytes.drop 24).take 8 = encodeLE 8 L := by
    rw [d24]; exact take_append_len _ _ 8 (encodeLE_length _ _)
  have hdecL : decodeLE ((bytes.drop 24).take 8) = L := by
    rw [t24, decode_encode]
    have : (256 : Nat) ^ 8 = 2 ^ 64 := by norm_num
    rw [this]
    exact Nat.mod_eq_of_lt hL
  have hp : (bytes.drop 32).take L = P := by
    rw [d32]; exact take_append_len _ _ L rfl
  rw [eventRead]
  have hc1 : ¬ (0 + HEADER_SIZE > bytes.length) := by
    simp only [hlen, HEADER_SIZE] at *
    omega
  rw [if_neg hc1]
  simp only [Nat.zero_add, hdecL]
  have hc2 : ¬ (HEADER_SIZE + L > bytes.length) := by
    simp only [hlen, HEADER_SIZE] at *
    omega
  rw [if_neg hc2]
  simp only [HEADER_SIZE]
  rw [t0, t8, t16, hp, decode_encode, decode_encode, decode_encode]
  norm_num

theorem eventRead_bounds {bytes : List Nat} {off : Nat} {e : Event}
    (h : eventRead bytes off = some e) :
    off + HEADER_SIZE ≤ bytes.length ∧ HEADER_SIZE ≤ e.on_disk_size := by
  unfold eventRead at h
  by_cases h1 : off + HEADER_SIZE > bytes.length
  · simp [h1] at h
  · rw [if_neg h1] at h
    refine ⟨by omega, ?_⟩
    by_cases h2 : off + HEADER_SIZE + decodeLE ((bytes.drop (off + 24)).take 8) > bytes.length
    · simp only [h2, if_true] at h
      exact absurd h (by simp)
    · rw [if_neg h2] at h
      have := congrArg (fun o => (Option.map (fun e => e.on_disk_size) o).getD 0) h
      simp at this
      rw [← this]
      exact header_le_on_disk_size _

theorem eventRead_shift (pre bytes : List Nat) (off : Nat) :
    eventRead (pre ++ bytes) (pre.length + off) = eventRead bytes off := by
  have hlen : (pre ++ bytes).length = pre.length + bytes.length := List.length_append _ _
  simp only [eventRead, hlen, Nat.add_assoc pre.length, drop_append_add, gt_iff_lt,
    Nat.add_lt_add_iff_left]

theorem viewFromF_shift (fuel : Nat) (pre bytes : List Nat) (off : Nat) :
    viewFromF fuel (pre ++ bytes) (pre.length + off) = viewFromF fuel bytes off := by
  induction fuel generalizing off with
  | zero => rfl
  | succ fuel ih =>
    rw [viewFromF, viewFromF, eventRead_shift]
    cases h : eventRead bytes off with
    | none => rfl
    | some e =>
      show e :: viewFromF fuel (pre ++ bytes) (pre.length + off + e.on_disk_size) =
        e :: viewFromF fuel bytes (off + e.on_disk_size)
      rw [show pre.length + off + e.on_disk_size = pre.length + (off + e.on_disk_size) by
        omega, ih]

theorem viewFromF_fuel_eq (f1 f2 : Nat) (bytes : List Nat) (off : Nat)
    (h1 : bytes.length - off < 32 * f1) (h2 : bytes.length - off < 32 * f2) :
    viewFromF f1 bytes off = viewFromF f2 bytes off := by
  induction f1 generalizing f2 off with
  | zero => omega
  | succ f1 ih =>
    cases f2 with
    | zero => omega
    | succ f2 =>
      rw [viewFromF, viewFromF]
      cases h : eventRead bytes off with
      | none => rfl
      | some e =>
        show e :: viewFromF f1 bytes (off + e.on_disk_size) =
          e :: viewFromF f2 bytes (off + e.on_disk_size)
        have hb1 : off + 32 ≤ bytes.length := h.rec (eventRead_bounds h).1
        have hb2 : 32 ≤ e.on_disk_size := (eventRead_bounds h).2
        rw [ih f2 (off + e.on_disk_size) (by omega) (by omega)]

theorem concatSer_nil : concatSer [] = [] := rfl

theorem concatSer_cons (e : Event) (evs : List Event) :
    concatSer (e :: evs) = e.serialize ++ concatSer evs := by
  simp [concatSer]

theorem concatSer_append (l1 l2 : List Event) :
    concatSer (l1 ++ l2) = concatSer l1 ++ concatSer l2 := by
  simp [concatSer]

theorem concatSer_length (evs : List Event) :
    (concatSer evs).length = ((evs.map Event.on_disk_size)).sum := by
  induction evs with
  | nil => rfl
  | cons e evs ih => simp [concatSer_cons, serialize_length, ih]

theorem viewEvents_nil : viewEvents [] = [] := rfl

theorem viewEvents_cons (e : Event) (tail : List Nat)
    (hL : e.payload.length < 2 ^ 64) :
    viewEvents (e.serialize ++ tail) = truncId e :: viewEvents tail := by
  have hsl : e.serialize.length = e.on_disk_size := serialize_length e
  have hsl32 : 32 ≤ e.serialize.length := by
    rw [hsl]; exact header_le_on_disk_size e
  rw [viewEvents, viewFromF, eventRead_serialize e tail hL]
  show truncId e ::
      viewFromF ((e.serialize ++ tail).length) (e.serialize ++ tail)
        (0 + (truncId e).on_disk_size) = _
  have hts : (truncId e).on_disk_size = e.serialize.length := by rw [hsl]; rfl
  rw [hts, show (0 : Nat) + e.serialize.length = e.serialize.length + 0 by omega,
    viewFromF_shift, viewEvents]
  have hlen : (e.serialize ++ tail).length = e.serialize.length + tail.length := by simp
  rw [viewFromF_fuel_eq ((e.serialize ++ tail).length) (tail.length + 1) tail 0
    (by rw [hlen]; omega) (by omega)]

theorem viewEvents_concatSer (evs : List Event) (h : Bounded evs) :
    viewEvents (concatSer evs) = evs.map truncId := by
  induction evs with
  | nil => rfl
  | cons e evs ih =>
    rw [concatSer_cons, viewEvents_cons e _ (h e (List.mem_cons_self e evs)),
      ih fun x hx => h x (List.mem_cons_of_mem e hx)]
    rfl

theorem offsetsFrom_length (start : Nat) (l : List Nat) :
    (offsetsFrom start l).length = l.length := by
  induction l generalizing start with
  | nil => rfl
  | cons s rest ih => simp [offsetsFrom, ih]

theorem offsetsFrom_append (start : Nat) (l1 l2 : List Nat) :
    offsetsFrom start (l1 ++ l2) =
      offsetsFrom start l1 ++ offsetsFrom (start + l1.sum) l2 := by
  induction l1 generalizing start with
  | nil => simp [offsetsFrom]
  | cons s rest ih =>
    rw [List.cons_append, offsetsFrom, offsetsFrom, ih, List.sum_cons, List.cons_append,
      Nat.add_assoc]

theorem offsetsFrom_lower (start : Nat) (l : List Nat) :
    ∀ y ∈ offsetsFrom start l, start ≤ y := by
  induction l generalizing start with
  | nil => simp [offsetsFrom]
  | cons s rest ih =>
    intro y hy
    rcases List.mem_cons.mp hy with h | h
    · omega
    · have := ih (start + s) y h
      omega

theorem offsetsFrom_chain' (start : Nat) (l : List Nat) (h : ∀ x ∈ l, 0 < x) :
    List.Chain' (· < ·) (offsetsFrom start l) := by
  induction l generalizing start with
  | nil => simp [offsetsFrom]
  | cons s rest ih =>
    rw [offsetsFrom]
    refine List.chain'_cons'.mpr ⟨?_, ih (start + s) fun x hx => h x (List.mem_cons_of_mem s hx)⟩
    intro y hy
    have hmem := List.mem_of_mem_head? hy
    have hs : 0 < s := h s (List.mem_cons_self s rest)
    have := offsetsFrom_lower (start + s) rest y hmem
    omega

theorem offsetsFrom_getD (l : List Nat) (start i : Nat) (h : i + 1 < l.length) :
    (offsetsFrom start l).getD (i + 1) 0 =
      (offsetsFrom start l).getD i 0 + l.getD i 0 := by
  induction l generalizing start i with
  | nil => simp at h
  | cons s rest ih =>
    cases i with
    | zero =>
      cases rest with
      | nil => simp at h
      | cons s2 rest2 => simp [offsetsFrom]
    | succ i =>
      simp only [offsetsFrom, List.getD_cons_succ]
      exact ih (start + s) i (by simp at h ⊢; omega)

theorem pushLoop_spec (evs : List Event) (ki : FixVec Nat) (off : Nat)
    (hwf : ki.elems.length ≤ ki.cap) :
    ∃ k, k ≤ evs.length ∧
      (pushLoop ki off evs).2.2.1 = evs.take k ∧
      (pushLoop ki off evs).1.cap = ki.cap ∧
      (pushLoop ki off evs).1.elems =
        ki.elems ++ offsetsFrom off ((evs.take k).map Event.on_disk_size) ∧
      (pushLoop ki off evs).1.elems.length ≤ ki.cap ∧
      ((pushLoop ki off evs).2.2.2 = true → k = evs.length) ∧
      ((pushLoop ki off evs).2.2.2 = false → (pushLoop ki off evs).1.elems.length = ki.cap) := by
  induction evs generalizing ki off with
  | nil =>
    refine ⟨0, by simp [pushLoop, offsetsFrom], by simp [pushLoop], by simp [pushLoop],
      by simp [pushLoop, offsetsFrom], by simpa [pushLoop] using hwf,
      by simp [pushLoop], by simp [pushLoop]⟩
  | cons e rest ih =>
    by_cases hc : ki.cap ≥ ki.elems.length + 1
    · have hpush : ki.push off = (⟨ki.cap, ki.elems ++ [off]⟩, true) := by
        simp [FixVec.push, hc]
      obtain ⟨k, hk, hpushed, hcap, helems, hle, hok, hfail⟩ :=
        ih ⟨ki.cap, ki.elems ++ [off]⟩ (off + e.on_disk_size) (by simp; omega)
      refine ⟨k + 1, by simp; omega, ?_, ?_, ?_, ?_, ?_, ?_⟩ <;>
        simp only [pushLoop, hpush]
      · cases hres : pushLoop ⟨ki.cap, ki.elems ++ [off]⟩ (off + e.on_disk_size) rest with
        | mk kf r2 =>
          obtain ⟨offf, pushed, ok⟩ := r2
          rw [hres] at hpushed hcap helems hle hok hfail
          simp only [List.take_succ_cons]
          simp only at hpushed
          rw [hpushed]
      · cases hres : pushLoop ⟨ki.cap, ki.elems ++ [off]⟩ (off + e.on_disk_size) rest with
        | mk kf r2 =>
          obtain ⟨offf, pushed, ok⟩ := r2
          rw [hres] at hcap
          simpa using hcap
      · cases hres : pushLoop ⟨ki.cap, ki.elems ++ [off]⟩ (off + e.on_disk_size) rest with
        | mk kf r2 =>
          obtain ⟨offf, pushed, ok⟩ := r2
          rw [hres] at helems
          simp only at helems
          simp only [helems, List.take_succ_cons, List.map_cons, offsetsFrom, List.append_assoc,
            List.cons_append, List.nil_append]
      · cases hres : pushLoop ⟨ki.cap, ki.elems ++ [off]⟩ (off + e.on_disk_size) rest with
        | mk kf r2 =>
          obtain ⟨offf, pushed, ok⟩ := r2
          rw [hres] at hle
          simpa using hle
      · cases hres : pushLoop ⟨ki.cap, ki.elems ++ [off]⟩ (off + e.on_disk_size) rest with
        | mk kf r2 =>
          obtain ⟨offf, pushed, ok⟩ := r2
          rw [hres] at hok
          intro hx
          simp only at hx
          simp [hok hx]
      · cases hres : pushLoop ⟨ki.cap, ki.elems ++ [off]⟩ (off + e.on_disk_size) rest with
        | mk kf r2 =>
          obtain ⟨offf, pushed, ok⟩ := r2
          rw [hres] at hfail
          intro hx
          simp only at hx
          simpa using hfail hx
    · have hpush : ki.push off = (ki, false) := by
        simp [FixVec.push, hc]
      refine ⟨0, by omega, ?_, ?_, ?_, ?_, ?_, ?_⟩ <;>
        simp [pushLoop, hpush, offsetsFrom] <;> omega

theorem loginv_init (id : Nat × Nat) (c1 c2 c3 c4 : Nat) :
    LogInv (LogState.init id c1 c2 c3 c4) := by
  refine ⟨rfl, by simp [LogState.init], Or.inl rfl, by simp [LogState.init, FixVec.new],
    ⟨[], rfl, by simp [Bounded]⟩⟩

theorem loginv_enqueue (s : LogState) (p : List Nat) (hp : p.length < 2 ^ 64)
    (h : LogInv s) : LogInv (s.enqueue p).1 := by
  obtain ⟨h1, h2, h3, h4, staged, hbuf, hbnd⟩ := h
  unfold LogState.enqueue eventAppend
  dsimp only
  by_cases hc : s.txn_write_buf.cap ≥ s.txn_write_buf.elems.length +
      (⟨⟨s.id, s.key_index.elems.length⟩, p⟩ : Event).on_disk_size
  · rw [if_pos hc]
    refine ⟨h1, h2, h3, h4, staged ++ [⟨⟨s.id, s.key_index.elems.length⟩, p⟩], ?_, ?_⟩
    · simp only [concatSer_append, concatSer_cons, concatSer_nil, List.append_nil, hbuf]
    · intro x hx
      rcases List.mem_append.mp hx with hx | hx
      · exact hbnd x hx
      · simp at hx
        subst hx
        exact hp
  · rw [if_neg hc]
    exact ⟨h1, h2, h3, h4, staged, hbuf, hbnd⟩

theorem map_size_truncId (evs : List Event) :
    evs.map (fun e => (truncId e).on_disk_size) = evs.map Event.on_disk_size := rfl

theorem loginv_commit {s s' : LogState} {d : Bool} {e : Option CommitErr}
    (h : s.commit d = .result s' e) (hinv : LogInv s) : LogInv s' := by
  obtain ⟨h1, h2, h3, h4, staged, hbuf, hbnd⟩ := hinv
  unfold LogState.commit at h
  by_cases hb8 : s.byte_len % 8 ≠ 0
  · rw [if_pos hb8] at h
    exact absurd h (by simp)
  rw [if_neg hb8] at h
  by_cases hhdr : HEADER_SIZE > s.txn_write_buf.elems.length
  · rw [if_pos hhdr] at h
    rw [CommitRes.result.injEq] at h
    rw [← h.1]
    exact ⟨h1, h2, h3, h4, staged, hbuf, hbnd⟩
  rw [if_neg hhdr] at h
  by_cases hd : ¬ d = true
  · rw [if_pos hd] at h
    rw [CommitRes.result.injEq] at h
    rw [← h.1]
    exact ⟨h1, h2, h3, h4, staged, hbuf, hbnd⟩
  rw [if_neg hd] at h
  simp only at h
  -- the cache update
  cases hup : s.read_cache.update? s.txn_write_buf.elems with
  | none => rw [hup] at h; exact absurd h (by simp)
  | some rcok =>
    obtain ⟨rc, ok⟩ := rcok
    rw [hup] at h
    cases ok with
    | false =>
      simp only at h
      rw [CommitRes.result.injEq] at h
      rw [← h.1]
      exact ⟨h1, h2, h3, h4, staged, hbuf, hbnd⟩
    | true =>
      simp only at h
      -- view of the buffer
      have hview : viewEvents s.txn_write_buf.elems = staged.map truncId := by
        rw [hbuf, viewEvents_concatSer staged hbnd]
      obtain ⟨k, hk, hpushed, hcap, helems, hle, hok, hfail⟩ :=
        pushLoop_spec (viewEvents s.txn_write_buf.elems) s.key_index s.byte_len h4
      have hpos : ∀ x ∈ viewEvents s.txn_write_buf.elems, 0 < x.on_disk_size := by
        intro x hx
        rw [hview] at hx
        obtain ⟨y, hy, hxy⟩ := List.mem_map.mp hx
        subst hxy
        have : HEADER_SIZE ≤ (truncId y).on_disk_size := header_le_on_disk_size _
        simp [HEADER_SIZE] at this
        omega
      cases hres : pushLoop s.key_index s.byte_len (viewEvents s.txn_write_buf.elems) with
      | mk ki' rest2 =>
        obtain ⟨offf, pushed, okp⟩ := rest2
        rw [hres] at h hpushed hcap helems hle hok hfail
        simp only at hpushed hcap helems hle hok hfail
        cases okp with
        | false =>
          simp only at h
          rw [CommitRes.result.injEq] at h
          rw [← h.1]
          refine ⟨?_, ?_, ?_, ?_, staged, hbuf, hbnd⟩
          · -- key_index = offsetsFrom 0 (sizes of events')
            simp only [helems, hpushed]
            rcases h3 with h3 | h3
            · rw [List.map_append, offsetsFrom_append, ← h1, Nat.zero_add, h3]
            · -- index already full: nothing was pushed
              have hlen' : ki'.elems.length =
                  s.key_index.elems.length +
                    ((viewEvents s.txn_write_buf.elems).take k).length := by
                simp [helems, offsetsFrom_length]
              have htk : ((viewEvents s.txn_write_buf.elems).take k) = [] := by
                have : ((viewEvents s.txn_write_buf.elems).take k).length = 0 := by omega
                exact List.length_eq_zero.mp this
              simp only [htk, List.map_nil, offsetsFrom, List.append_nil, h1]
          · intro x hx
            rcases List.mem_append.mp hx with hx | hx
            · exact h2 x hx
            · exact hpos x (List.mem_of_mem_take (hpushed ▸ hx))
          · right
            rw [hfail rfl, hcap]
          · simpa [hcap] using hle
        | true =>
          simp only at h
          split at h
          · exact absurd h (by simp)
          rw [CommitRes.result.injEq] at h
          rw [← h.1]
          have hkful : k = (viewEvents s.txn_write_buf.elems).length := hok rfl
          have htk : (viewEvents s.txn_write_buf.elems).take k =
              viewEvents s.txn_write_buf.elems := by
            rw [hkful]; exact List.take_length _
          -- the buffer is nonempty, so the view is nonempty
          have hvne : viewEvents s.txn_write_buf.elems ≠ [] := by
            intro hnil
            rw [hview] at hnil
            have : staged = [] := by simpa using hnil
            rw [this] at hbuf
            simp [concatSer_nil] at hbuf
            rw [hbuf] at hhdr
            simp [HEADER_SIZE] at hhdr
          -- hence the old link must be the sum equation
          have hsum : (s.events.map Event.on_disk_size).sum = s.byte_len := by
            rcases h3 with h3 | h3
            · exact h3
            · exfalso
              cases hv : viewEvents s.txn_write_buf.elems with
              | nil => exact hvne hv
              | cons v vs =>
                rw [hv] at hres
                have hpushf : s.key_index.push s.byte_len = (s.key_index, false) := by
                  simp [FixVec.push]; omega
                rw [pushLoop, hpushf] at hres
                simp at hres
          have hbuflen : s.txn_write_buf.elems.length =
              ((viewEvents s.txn_write_buf.elems).map Event.on_disk_size).sum := by
            rw [hview, hbuf, concatSer_length]
            rw [List.map_map]
            rfl
          refine ⟨?_, ?_, ?_, ?_, [], rfl, by simp [Bounded]⟩
          · simp only [hpushed, htk, helems]
            rw [List.map_append, offsetsFrom_append, ← h1, Nat.zero_add, hsum]
          · intro x hx
            rcases List.mem_append.mp hx with hx | hx
            · exact h2 x hx
            · exact hpos x (htk ▸ hpushed ▸ hx)
          · left
            simp only [hpushed, htk, List.map_append, List.sum_append, hsum, hbuflen]
          · simpa [hcap] using hle

theorem loginv_reachable {s : LogState} (h : Reachable s) : LogInv s := by
  induction h with
  | init id c1 c2 c3 c4 => exact loginv_init id c1 c2 c3 c4
  | enqueue p hp hs ih => exact loginv_enqueue _ p hp ih
  | commit d hs hcm ih => exact loginv_commit hcm ih

theorem wrap_b {c : ReadCache} {es : List Nat} (hb : c.b.pos = 0) {c' : ReadCache}
    {ok : Bool} (h : c.wrap_around? es = some (c', ok)) :
    c'.b.pos = 0 ∧ c'.b.end' ≤ c'.a.pos := by
  unfold ReadCache.wrap_around? at h
  cases hnap : c.new_a_pos? es with
  | none => rw [hnap] at h; exact absurd h (by simp)
  | some onap =>
    rw [hnap] at h
    cases onap with
    | some o =>
      -- the offset found is strictly above the would-be new B end
      have hgt : o > c.b.end' + es.length := by
        unfold ReadCache.new_a_pos? at hnap
        cases hab : c.a.read c.mem with
        | none => rw [hab] at hnap; exact absurd hnap (by simp)
        | some ab =>
          rw [hab] at hnap
          simp only [Option.map_some', Option.some.injEq] at hnap
          have := List.find?_some hnap
          exact of_decide_eq_true this
      simp only at h
      cases hext : cacheExtend c.b c.mem es with
      | some pr =>
        obtain ⟨b', mem'⟩ := pr
        rw [hext] at h
        simp only [Option.some.injEq, Prod.mk.injEq] at h
        rw [← h.1]
        unfold cacheExtend at hext
        cases hw : (Region.new c.b.len es.length).write c.mem es with
        | none => rw [hw] at hext; exact absurd hext (by simp)
        | some d =>
          rw [hw] at hext
          simp only [Option.some.injEq, Prod.mk.injEq] at hext
          rw [← hext.1]
          simp [Region.lengthen, Region.end', Region.change_pos, hb] at *
          omega
      | none =>
        rw [hext] at h
        simp only [Option.some.injEq, Prod.mk.injEq] at h
        rw [← h.1]
        simp [Region.end', Region.change_pos, hb] at *
        omega
    | none =>
      simp only at h
      cases hext : cacheExtend (Region.new 0 c.b.end') c.mem es with
      | some pr =>
        obtain ⟨a', mem'⟩ := pr
        rw [hext] at h
        simp only [Option.some.injEq, Prod.mk.injEq] at h
        rw [← h.1]
        simp [Region.end', Region.ZERO]
      | none =>
        rw [hext] at h
        simp only at h
        cases hsls : ReadCache.set_logical_start?
            { c with a := Region.ZERO, b := Region.ZERO } es with
        | none =>
          rw [hsls] at h
          exact absurd h (by simp)
        | some c2 =>
          rw [hsls] at h
          simp only at h
          have hc2 : c2.a = Region.ZERO ∧ c2.b = Region.ZERO := by
            unfold ReadCache.set_logical_start? at hsls
            cases he : eventRead es 0 with
            | none => rw [he] at hsls; exact absurd hsls (by simp)
            | some ev =>
              rw [he] at hsls
              simp only [Option.map_some', Option.some.injEq] at hsls
              rw [← hsls]
              exact ⟨rfl, rfl⟩
          cases hext2 : cacheExtend c2.a c2.mem es with
          | some pr =>
            obtain ⟨a', mem'⟩ := pr
            rw [hext2] at h
            simp only [Option.some.injEq, Prod.mk.injEq] at h
            rw [← h.1]
            simp [hc2.2, Region.end', Region.ZERO]
          | none =>
            rw [hext2] at h
            simp only [Option.some.injEq, Prod.mk.injEq] at h
            rw [← h.1]
            simp [hc2.2, Region.end', Region.ZERO]

theorem update_b {c : ReadCache} {es : List Nat} (hb : c.b.pos = 0) {c' : ReadCache}
    {ok : Bool} (h : c.update? es = some (c', ok)) :
    c'.b.pos = 0 ∧ c'.b.end' ≤ c'.a.pos := by
  unfold ReadCache.update? at h
  cases hae : c.a.isEmpty <;> cases hbe : c.b.isEmpty <;> rw [hae, hbe] at h
  · -- a nonempty, b nonempty: wrap-around
    exact wrap_b hb h
  · -- a nonempty, b empty: try extending A
    have hblen : c.b.len = 0 := by simpa [Region.isEmpty] using hbe
    simp only at h
    cases hext : cacheExtend c.a c.mem es with
    | some pr =>
      obtain ⟨a', mem'⟩ := pr
      rw [hext] at h
      simp only [Option.some.injEq, Prod.mk.injEq] at h
      rw [← h.1]
      simp [Region.end', hb, hblen]
    | none =>
      rw [hext] at h
      exact wrap_b hb h
  · -- a empty, b nonempty: wrap-around
    exact wrap_b hb h
  · -- both empty: seed logical start, extend A
    have hblen : c.b.len = 0 := by simpa [Region.isEmpty] using hbe
    simp only at h
    cases hsls : c.set_logical_start? es with
    | none => rw [hsls] at h; exact absurd h (by simp)
    | some c2 =>
      rw [hsls] at h
      simp only at h
      have hc2 : c2.a = c.a ∧ c2.b = c.b := by
        unfold ReadCache.set_logical_start? at hsls
        cases he : eventRead es 0 with
        | none => rw [he] at hsls; exact absurd hsls (by simp)
        | some ev =>
          rw [he] at hsls
          simp only [Option.map_some', Option.some.injEq] at hsls
          rw [← hsls]
          exact ⟨rfl, rfl⟩
      cases hext : cacheExtend c2.a c2.mem es with
      | some pr =>
        obtain ⟨a', mem'⟩ := pr
        rw [hext] at h
        simp only [Option.some.injEq, Prod.mk.injEq] at h
        rw [← h.1]
        simp [hc2.2, Region.end', hb, hblen]
      | none =>
        rw [hext] at h
        simp only [Option.some.injEq, Prod.mk.injEq] at h
        rw [← h.1]
        simp [hc2.1, hc2.2, Region.end', hb, hblen]

theorem cache_b_pos {c : ReadCache} (h : CacheReachable c) : c.b.pos = 0 := by
  induction h with
  | init capacity => rfl
  | step hc hstep ih => exact (update_b ih hstep).1

theorem viewFromF_mem_size {fuel : Nat} {bytes : List Nat} {off : Nat} {e : Event}
    (h : e ∈ viewFromF fuel bytes off) : 32 ≤ e.on_disk_size := by
  induction fuel generalizing off with
  | zero => simp [viewFromF] at h
  | succ fuel ih =>
    rw [viewFromF] at h
    cases hr : eventRead bytes off with
    | none => rw [hr] at h; simp at h
    | some e2 =>
      rw [hr] at h
      simp only [List.mem_cons] at h
      rcases h with h | h
      · subst h
        exact (eventRead_bounds hr).2
      · exact ih h

theorem runningTotals_lower (acc : Nat) (l : List Nat) (h : ∀ x ∈ l, 0 < x) :
    ∀ y ∈ runningTotals acc l, acc < y := by
  induction l generalizing acc with
  | nil => simp [runningTotals]
  | cons s rest ih =>
    intro y hy
    rcases List.mem_cons.mp hy with hy | hy
    · have := h s (List.mem_cons_self s rest)
      omega
    · have := ih (acc + s) (fun x hx => h x (List.mem_cons_of_mem s hx)) y hy
      have := h s (List.mem_cons_self s rest)
      omega

theorem runningTotals_chain' (acc : Nat) (l : List Nat) (h : ∀ x ∈ l, 0 < x) :
    List.Chain' (· < ·) (runningTotals acc l) := by
  induction l generalizing acc with
  | nil => simp [runningTotals]
  | cons s rest ih =>
    rw [runningTotals]
    refine List.chain'_cons'.mpr
      ⟨?_, ih (acc + s) fun x hx => h x (List.mem_cons_of_mem s hx)⟩
    intro y hy
    exact runningTotals_lower (acc + s) rest
      (fun x hx => h x (List.mem_cons_of_mem s hx)) y (List.mem_of_mem_head? hy)

theorem find?_least {l : List Nat} {p : Nat → Bool} {a : Nat}
    (hs : List.Pairwise (· ≤ ·) l) (h : l.find? p = some a) :
    ∀ b ∈ l, p b = true → a ≤ b := by
  induction l with
  | nil => simp at h
  | cons x rest ih =>
    rcases List.pairwise_cons.mp hs with ⟨hx, hrest⟩
    by_cases hp : p x = true
    · rw [List.find?_cons_of_pos _ hp] at h
      obtain rfl : x = a := by simpa using h
      intro b hb _
      rcases List.mem_cons.mp hb with rfl | hb
      · exact le_refl _
      · exact hx b hb
    · rw [List.find?_cons_of_neg _ (by simpa using hp)] at h
      intro b hb hpb
      rcases List.mem_cons.mp hb with rfl | hb
      · exact absurd hpb hp
      · exact ih hrest h b hb hpb

/-- C4 (amended): when `new_a_pos` finds an offset `o`, `o` is the smallest
accumulated event-boundary offset in `A` strictly greater than the would-be
new `B` end `b.end() + src.len()` (the walk is as the claim describes), and
the wrap-around step then sets `A.pos` to `o` itself — the offset relative
to `A`'s current start used as an absolute buffer position, not
`A.pos + o` — leaving `A.end` fixed, and appends `src` into `B` extending
it forward from its current end on success. -/
theorem c4_theorem (c : ReadCache) (es : List Nat) (o : Nat)
    (ho : c.new_a_pos? es = some (some o)) :
    (∃ ab, c.a.read c.mem = some ab ∧
      o ∈ runningTotals 0 ((viewEvents ab).map Event.on_disk_size) ∧
      c.b.end' + es.length < o ∧
      (∀ o' ∈ runningTotals 0 ((viewEvents ab).map Event.on_disk_size),
        c.b.end' + es.length < o' → o ≤ o')) ∧
    (∀ c' ok, c.wrap_around? es = some (c', ok) →
      c'.a.pos = o ∧ c'.a.len = c.a.end' - o ∧ c'.logical_start = c.logical_start ∧
      (ok = true → c'.b.pos = c.b.pos ∧ c'.b.len = c.b.len + es.length ∧
        (Region.new c.b.len es.length).write c.mem es = some c'.mem) ∧
      (ok = false → c'.b = c.b ∧ c'.mem = c.mem)) := by
  constructor
  · unfold ReadCache.new_a_pos? at ho
    cases hab : c.a.read c.mem with
    | none => rw [hab] at ho; exact absurd ho (by simp)
    | some ab =>
      rw [hab] at ho
      simp only [Option.map_some', Option.some.injEq] at ho
      have hpos : ∀ x ∈ (viewEvents ab).map Event.on_disk_size, 0 < x := by
        intro x hx
        obtain ⟨y, hy, hxy⟩ := List.mem_map.mp hx
        subst hxy
        have := viewFromF_mem_size hy
        omega
      refine ⟨ab, rfl, List.mem_of_find?_eq_some ho, ?_, ?_⟩
      · have := List.find?_some ho
        exact of_decide_eq_true this
      · intro o' ho' hgt
        refine find?_least ?_ ho o' ho' (decide_eq_true hgt)
        exact ((List.chain'_iff_pairwise).mp
          (runningTotals_chain' 0 _ hpos)).imp le_of_lt
  · intro c' ok h
    unfold ReadCache.wrap_around? at h
    rw [ho] at h
    simp only at h
    cases hext : cacheExtend c.b c.mem es with
    | some pr =>
      obtain ⟨b', mem'⟩ := pr
      rw [hext] at h
      simp only [Option.some.injEq, Prod.mk.injEq] at h
      obtain ⟨hc', hok⟩ := h
      subst hc'
      subst hok
      unfold cacheExtend at hext
      cases hw : (Region.new c.b.len es.length).write c.mem es with
      | none => rw [hw] at hext; exact absurd hext (by simp)
      | some d =>
        rw [hw] at hext
        simp only [Option.some.injEq, Prod.mk.injEq] at hext
        obtain ⟨hb', hd⟩ := hext
        subst hb'
        subst hd
        exact ⟨rfl, rfl, rfl, fun _ => ⟨rfl, rfl, by simp [hw]⟩, by simp⟩
    | none =>
      rw [hext] at h
      simp only [Option.some.injEq, Prod.mk.injEq] at h
      obtain ⟨hc', hok⟩ := h
      subst hc'
      subst hok
      exact ⟨rfl, rfl, rfl, by simp, fun _ => ⟨rfl, rfl⟩⟩

theorem fixvec_extend_spec {α : Type} (l : List α) (v : FixVec α)
    (hwf : v.elems.length ≤ v.cap) :
    (v.extend l).1.cap = v.cap ∧
    (v.extend l).1.elems = v.elems ++ l.take (v.cap - v.elems.length) ∧
    ((v.extend l).2 = true ↔ v.elems.length + l.length ≤ v.cap) := by
  induction l generalizing v with
  | nil =>
    refine ⟨rfl, by simp [FixVec.extend], by simp [FixVec.extend]; omega⟩
  | cons x rest ih =>
    by_cases hc : v.cap ≥ v.elems.length + 1
    · have hpush : v.push x = (⟨v.cap, v.elems ++ [x]⟩, true) := by
        simp [FixVec.push, hc]
      obtain ⟨ihc, ihe, ihok⟩ := ih ⟨v.cap, v.elems ++ [x]⟩ (by simp; omega)
      have hstep : v.extend (x :: rest) = FixVec.extend ⟨v.cap, v.elems ++ [x]⟩ rest := by
        rw [FixVec.extend, hpush]
      refine ⟨by rw [hstep]; exact ihc, ?_, ?_⟩
      · rw [hstep, ihe]
        simp only [List.append_assoc, List.cons_append, List.nil_append]
        have htake : v.cap - v.elems.length = (v.cap - (v.elems.length + 1)) + 1 := by omega
        rw [htake, List.take_succ_cons]
        simp
      · rw [hstep, ihok]
        simp
        omega
    · have hpush : v.push x = (v, false) := by
        simp [FixVec.push, hc]
      have hstep : v.extend (x :: rest) = (v, false) := by
        rw [FixVec.extend, hpush]
      refine ⟨by rw [hstep], ?_, ?_⟩
      · rw [hstep]
        have : v.cap - v.elems.length = 0 := by omega
        simp [this]
      · rw [hstep]
        simp
        omega

theorem reachable_foldl (ps : List (List Nat)) (hps : ∀ p ∈ ps, p.length < 2 ^ 64)
    {s : LogState} (hs : Reachable s) : Reachable (ps.foldl logStep s) := by
  induction ps generalizing s with
  | nil => exact hs
  | cons p rest ih =>
    rw [List.foldl_cons]
    refine ih (fun q hq => hps q (List.mem_cons_of_mem p hq)) ?_
    unfold logStep
    cases h : ((s.enqueue p).1.commit true) with
    | panicked => exact hs
    | result s' e =>
      exact Reachable.commit true (Reachable.enqueue p (hps p (List.mem_cons_self p rest)) hs) h

theorem reachable_demoA (n : Nat) : Reachable (demoA n) := by
  rw [demoA, show (fun (s : LogState) (i : Nat) => logStep s [100 + i]) =
    (fun s i => logStep s ((fun j => [100 + j]) i)) from rfl, ← List.foldl_map]
  exact reachable_foldl _ (by intro p hp; simp at hp; obtain ⟨i, _, hi⟩ := hp; simp [← hi])
    (Reachable.init _ _ _ _ _)

/-- C6: if `commit` returns `CommitErr::Disk`, the log state — `byte_len`,
`key_index`, the read cache and the transaction write buffer (the whole
model state) — equals the state before the call; and a failing storage
adapter on a committable state does produce exactly that outcome. -/
theorem c6_theorem (s : LogState) (d : Bool) :
    (∀ s', s.commit d = .result s' (some CommitErr.disk) → s' = s) ∧
    (s.byte_len % 8 = 0 → HEADER_SIZE ≤ s.txn_write_buf.elems.length → d = false →
      s.commit d = .result s (some CommitErr.disk)) := by
  constructor
  · intro s' h
    unfold LogState.commit at h
    by_cases hb8 : s.byte_len % 8 ≠ 0
    · rw [if_pos hb8] at h; exact absurd h (by simp)
    rw [if_neg hb8] at h
    by_cases hhdr : HEADER_SIZE > s.txn_write_buf.elems.length
    · rw [if_pos hhdr] at h
      simp at h
    rw [if_neg hhdr] at h
    by_cases hd : ¬ d = true
    · rw [if_pos hd] at h
      simp at h
      exact h.symm
    rw [if_neg hd] at h
    simp only at h
    cases hup : s.read_cache.update? s.txn_write_buf.elems with
    | none => rw [hup] at h; exact absurd h (by simp)
    | some rcok =>
      obtain ⟨rc, ok⟩ := rcok
      rw [hup] at h
      cases ok with
      | false => simp at h
      | true =>
        simp only at h
        cases hres : pushLoop s.key_index s.byte_len (viewEvents s.txn_write_buf.elems) with
        | mk ki' rest2 =>
          obtain ⟨offf, pushed, okp⟩ := rest2
          rw [hres] at h
          cases okp with
          | false => simp at h
          | true =>
            split at h
            all_goals first
            | (split at h <;> simp at h)
            | simp at h
  · intro h8 hhdr hd
    subst hd
    unfold LogState.commit
    rw [if_neg (by omega), if_neg (by omega)]
    simp

/-- C8: under the commit precondition `byte_len % 8 == 0`, `commit` returns
`TxnWriteBufHasNoEvents` exactly when the transaction write buffer holds
fewer bytes than one event header, and in that case the state (storage,
cache, index and byte length included) is untouched. -/
theorem c8_theorem (s : LogState) (d : Bool) (h8 : s.byte_len % 8 = 0) :
    (s.txn_write_buf.elems.length < HEADER_SIZE →
      s.commit d = .result s (some CommitErr.txnWriteBufHasNoEvents)) ∧
    (∀ s' e, s.commit d = .result s' (some e) →
      e = CommitErr.txnWriteBufHasNoEvents →
      s.txn_write_buf.elems.length < HEADER_SIZE ∧ s' = s) := by
  constructor
  · intro hlt
    unfold LogState.commit
    rw [if_neg (by omega), if_pos (by omega)]
  · intro s' e h he
    subst he
    unfold LogState.commit at h
    rw [if_neg (by omega)] at h
    by_cases hhdr : HEADER_SIZE > s.txn_write_buf.elems.length
    · rw [if_pos hhdr] at h
      simp only [CommitRes.result.injEq] at h
      exact ⟨by omega, h.1.symm⟩
    rw [if_neg hhdr] at h
    by_cases hd : ¬ d = true
    · rw [if_pos hd] at h
      simp at h
    rw [if_neg hd] at h
    simp only at h
    cases hup : s.read_cache.update? s.txn_write_buf.elems with
    | none => rw [hup] at h; exact absurd h (by simp)
    | some rcok =>
      obtain ⟨rc, ok⟩ := rcok
      rw [hup] at h
      cases ok with
      | false => simp at h
      | true =>
        simp only at h
        cases hres : pushLoop s.key_index s.byte_len (viewEvents s.txn_write_buf.elems) with
        | mk ki' rest2 =>
          obtain ⟨offf, pushed, okp⟩ := rest2
          rw [hres] at h
          cases okp with
          | false => simp at h
          | true =>
            split at h
            all_goals first
            | (split at h <;> simp at h)
            | simp at h

/-- C10: on every log whose `key_index` is empty (no successful commit),
`read` panics — it indexes `key_index[read_cache.logical_start]` on an
empty index — for every requested logical position, instead of returning
`None`. -/
theorem c10_theorem (s : LogState) (logical_pos : Nat) (h : s.key_index.elems = []) :
    s.read logical_pos = .panicked := by
  unfold LogState.read FixVec.get?
  rw [h]
  simp

/-- C9 (amended): `push` and `extend_from_slice` fail with `Overflow`
exactly when the resulting length would exceed the capacity and leave the
vector unchanged on failure; `extend` (over an iterator) fails with
`Overflow` exactly when the total resulting length would exceed the
capacity, but on failure it keeps the elements pushed before the overflow:
the result always holds the first `capacity - len` input elements.  (The
unchanged-on-failure part of the claim is refuted for `extend` by the
counterexample.) -/
theorem c9_theorem {α : Type} (v : FixVec α) (x : α) (l other : List α)
    (hwf : v.elems.length ≤ v.cap) :
    ((v.push x).2 = false ↔ v.cap < v.elems.length + 1) ∧
    ((v.push x).2 = false → (v.push x).1 = v) ∧
    ((v.extend_from_slice other).2 = false ↔ v.cap < v.elems.length + other.length) ∧
    ((v.extend_from_slice other).2 = false → (v.extend_from_slice other).1 = v) ∧
    ((v.extend l).2 = false ↔ v.cap < v.elems.length + l.length) ∧
    (v.extend l).1.elems = v.elems ++ l.take (v.cap - v.elems.length) := by
  obtain ⟨hc, he, hok⟩ := fixvec_extend_spec l v hwf
  refine ⟨?_, ?_, ?_, ?_, ?_, he⟩
  · unfold FixVec.push
    by_cases h : v.cap ≥ v.elems.length + 1
    · simp [h]
    · simp [h]; omega
  · unfold FixVec.push
    by_cases h : v.cap ≥ v.elems.length + 1 <;> simp [h]
  · unfold FixVec.extend_from_slice
    by_cases h : v.cap ≥ v.elems.length + other.length
    · simp [h]
    · simp [h]; omega
  · unfold FixVec.extend_from_slice
    by_cases h : v.cap ≥ v.elems.length + other.length <;> simp [h]
  · constructor
    · intro hf
      by_contra hcon
      rw [hok.mpr (by omega)] at hf
      simp at hf
    · intro hlt
      cases hE : (v.extend l).2 with
      | false => rfl
      | true => exact absurd (hok.mp hE) (by omega)

/-- Counterexample for C9: a capacity-1 vector extended from the iterator
`[0, 1]` fails with overflow but is left changed: it now holds `[0]`,
not its original empty contents. -/
theorem c9_counterexample :
    ((FixVec.new Nat 1).extend [0, 1]).2 = false ∧
    ((FixVec.new Nat 1).extend [0, 1]).1.elems = [0] ∧
    (FixVec.new Nat 1).elems = [] := by decide

/-- C5 (amended): after every `ReadCache::update` call, over every sequence
of updates from the initial empty cache, `B.pos == 0` and
`B.end ≤ A.pos` hold — i.e. the two assertions at the end of `update`
never fire.  (The event-boundary part of the claim is refuted by the
counterexample.) -/
theorem c5_theorem {c c' : ReadCache} {es : List Nat} {ok : Bool}
    (hr : CacheReachable c) (h : c.update? es = some (c', ok)) :
    c'.b.pos = 0 ∧ c'.b.end' ≤ c'.a.pos :=
  update_b (cache_b_pos hr) h

/-- Witness for C5: the amended theorem applied to the first update of a
fresh capacity-144 cache. -/
theorem c5_witness : demoCacheRes.1.b.pos = 0 ∧ demoCacheRes.1.b.end' ≤ demoCacheRes.1.a.pos :=
  c5_theorem (CacheReachable.init 144)
    (show (ReadCache.new 144).update? (Event.serialize ⟨⟨(0, 0), 0⟩, []⟩) =
      some (demoCacheRes.1, demoCacheRes.2) by decide)

/-- Witness for C6: a log with one committed and one staged event, whose
commit against a failing disk returns `Disk` with the state unchanged. -/
theorem c6_witness : demoC6.commit false = .result demoC6 (some CommitErr.disk) :=
  (c6_theorem demoC6 false).2 (by decide) (by decide) rfl

/-- C7: on every reachable log state, `key_index` is strictly increasing,
and each consecutive difference equals the on-disk size of the
corresponding indexed event. -/
theorem c7_theorem (s : LogState) (h : Reachable s) :
    List.Chain' (· < ·) s.key_index.elems ∧
    ∀ i, i + 1 < s.key_index.elems.length →
      s.key_index.elems.getD (i + 1) 0 =
        s.key_index.elems.getD i 0 + (s.events.map Event.on_disk_size).getD i 0 := by
  obtain ⟨h1, h2, _, _, _⟩ := loginv_reachable h
  constructor
  · rw [h1]
    refine offsetsFrom_chain' 0 _ ?_
    intro x hx
    obtain ⟨y, hy, hxy⟩ := List.mem_map.mp hx
    subst hxy
    exact h2 y hy
  · intro i hi
    rw [h1] at hi ⊢
    rw [offsetsFrom_length] at hi
    exact offsetsFrom_getD _ 0 i hi

/-- Witness for C7: the theorem applied to demonstration log A after four
commits (`key_index = [0, 40, 80, 120]`, all events 40 bytes). -/
theorem c7_witness :
    List.Chain' (· < ·) (demoA 4).key_index.elems ∧
    ∀ i, i + 1 < (demoA 4).key_index.elems.length →
      (demoA 4).key_index.elems.getD (i + 1) 0 =
        (demoA 4).key_index.elems.getD i 0 +
          ((demoA 4).events.map Event.on_disk_size).getD i 0 :=
  c7_theorem (demoA 4) (reachable_demoA 4)

/-- Witness for C8: committing a freshly created log (empty write buffer)
fails with the empty-transaction error and leaves the state unchanged. -/
theorem c8_witness :
    (LogState.init (0, 0) 4 4 64 4).commit true =
      .result (LogState.init (0, 0) 4 4 64 4) (some CommitErr.txnWriteBufHasNoEvents) :=
  (c8_theorem (LogState.init (0, 0) 4 4 64 4) true (by decide)).1 (by decide)

/-- Witness for C10: reading position 0 on a freshly created log panics. -/
theorem c10_witness : (LogState.init (0, 0) 8 8 8 8).read 0 = .panicked :=
  c10_theorem (LogState.init (0, 0) 8 8 8 8) 0 rfl

/-- Witness for C4: the amended theorem applied at the concrete cache of
demonstration log B before its sixth commit, where the found offset is 80. -/
theorem c4_witness :
    ∃ ab, (demoB 5).read_cache.a.read (demoB 5).read_cache.mem = some ab ∧
      80 ∈ runningTotals 0 ((viewEvents ab).map Event.on_disk_size) ∧
      (demoB 5).read_cache.b.end' +
        (Event.serialize ⟨⟨(0, 0), 5⟩, List.replicate 8 5⟩).length < 80 ∧
      (∀ o' ∈ runningTotals 0 ((viewEvents ab).map Event.on_disk_size),
        (demoB 5).read_cache.b.end' +
          (Event.serialize ⟨⟨(0, 0), 5⟩, List.replicate 8 5⟩).length < o' → 80 ≤ o') :=
  (c4_theorem (demoB 5).read_cache
    (Event.serialize ⟨⟨(0, 0), 5⟩, List.replicate 8 5⟩) 80 (by decide)).1

/-- Witness for C9: the amended theorem applied to a capacity-1 vector and
the input `[0, 1]`. -/
theorem c9_witness :
    ((((FixVec.new Nat 1).extend [0, 1]).2 = false ↔
      (FixVec.new Nat 1).cap < (FixVec.new Nat 1).elems.length + [0, 1].length) ∧
    ((FixVec.new Nat 1).extend [0, 1]).1.elems =
      (FixVec.new Nat 1).elems ++
        [0, 1].take ((FixVec.new Nat 1).cap - (FixVec.new Nat 1).elems.length)) :=
  (c9_theorem (FixVec.new Nat 1) 5 [0, 1] [2, 3] (by decide)).2.2.2.2

/-- C1 (code bug at a failing input): on a log with read-cache capacity 120,
the four payloads `[100]`, `[101]`, `[102]`, `[103]` are enqueued and
committed in four singleton batches; all commits succeed (the index has
four entries and the indexed events carry exactly those payloads), yet
`read 2` returns `None` rather than `Some`, and `read 0` returns a cache
hit carrying event 2's payload `[102]` instead of `[100]`: the round-trip
property fails because eviction neither reseeds `logical_start` nor keeps
`A` aligned with it.  The same slip breaks the repository's own unit test
scenario (capacity 127, payload lengths 27 and 34): its first assertion
holds, but after the second commit `read 1` panics on the `usize`
underflow in `ReadCache::read` (and would be `None` even without it), so
the test's second `unwrap` cannot succeed either. -/
theorem c1_theorem :
    (demoA 4).key_index.elems.length = 4 ∧
    (demoA 4).events.map Event.payload = [[100], [101], [102], [103]] ∧
    (demoA 4).read 2 = .ret none ∧
    (demoA 4).read 0 = .ret (some (true, ⟨⟨(0, 0), 2⟩, [102]⟩)) ∧
    (demoTest 1).read 0 =
      .ret (some (true, ⟨⟨(0, 0), 0⟩, List.replicate 27 65⟩)) ∧
    (demoTest 2).key_index.elems = [0, 64] ∧
    (demoTest 2).read 1 = .panicked := by
  decide

/-- C2 (code bug at a failing input): after the fourth successful commit of
demonstration log A, the concatenation `A ‖ B` of the cache segments equals
the committed byte stream from offset 80 (= `key_index[2]`) onward, but
`logical_start` is still 0 and `key_index[logical_start] = 0`, so `A ‖ B`
is not the substring starting at `key_index[logical_start]`: eviction ran
without passing through the empty state and `logical_start` was not
updated. -/
theorem c2_theorem :
    (demoA 4).read_cache.logical_start = 0 ∧
    (demoA 4).key_index.elems.getD (demoA 4).read_cache.logical_start 0 = 0 ∧
    cacheABytes (demoA 4).read_cache ++ cacheBBytes (demoA 4).read_cache =
      (demoA 4).disk.drop 80 ∧
    cacheABytes (demoA 4).read_cache ++ cacheBBytes (demoA 4).read_cache ≠
      (demoA 4).disk.drop
        ((demoA 4).key_index.elems.getD (demoA 4).read_cache.logical_start 0) := by
  decide

/-- C3 (code bug at a failing input): after the fourth successful commit of
demonstration log A the claim requires cache hits exactly on
`[logical_start, n) = [0, 4)`; but `read 3` returns `None` (position 3 is
not served by the cache, nor by disk), and the positions that do hit the
cache return the wrong events (`read 1` yields event 3's payload). -/
theorem c3_theorem :
    (demoA 4).read_cache.logical_start = 0 ∧
    (demoA 4).key_index.elems.length = 4 ∧
    (demoA 4).read 3 = .ret none ∧
    (demoA 4).read 1 = .ret (some (true, ⟨⟨(0, 0), 3⟩, [103]⟩)) := by
  decide

/-- Counterexample for C4: in demonstration log B's sixth commit the cache
wraps around from `A.pos = 64`; `new_a_pos` finds the relative offset 80,
and the implementation sets `A.pos` to 80, not to `A.pos + 80 = 144` as
the claim states. -/
theorem c4_counterexample :
    (demoB 5).read_cache.a.pos = 64 ∧
    (demoB 5).read_cache.new_a_pos?
      ((demoB 5).enqueue (List.replicate 8 5)).1.txn_write_buf.elems =
      some (some 80) ∧
    (demoB 6).read_cache.a.pos = 80 ∧
    (demoB 6).read_cache.a.pos ≠ (demoB 5).read_cache.a.pos + 80 := by
  decide

/-- Counterexample for C5: after demonstration log B's sixth successful
commit the two asserted conditions hold (`B.pos = 0`, `B.end ≤ A.pos`), yet
segment `A` does not begin and end on event boundaries: its bytes are not
the serialization of any consecutive run of the six committed events
(the `all` check ranges over every start `i ≤ 6` and length `j ≤ 6`, which
covers every consecutive run), because the wrap-around step set `A.pos` to
a relative offset.  So the conjunction claimed by C5 is false, and it is
not equivalent to the assertions never firing. -/
theorem c5_counterexample :
    (demoB 6).read_cache.b.pos = 0 ∧
    (demoB 6).read_cache.b.end' ≤ (demoB 6).read_cache.a.pos ∧
    (demoB 6).events.length = 6 ∧
    cacheABytes (demoB 6).read_cache ≠ [] ∧
    ((List.range 7).all fun i => (List.range 7).all fun j =>
      cacheABytes (demoB 6).read_cache !=
        concatSer (((demoB 6).events.drop i).take j)) = true := by
  decide

end Interlog
